import Mathlib

/-!
Shallow embedding of `src/life.py` (Conway's Game of Life on a
dictionary-backed board) and verification of its specification.

The Python board is a `dict` mapping coordinate pairs to integer marks.
A Python 3.7+ dict iterates in insertion order and value assignment to an
existing key preserves both the key set and the iteration order, so the
board is embedded as an association list `List (Coord × ℤ)` in insertion
order; `setVal` mirrors `board[cell] = v` on an existing key.
-/

namespace Life

abbrev Coord := ℤ × ℤ

/-- A board: the Python dict `{(x, y): mark}`, in insertion order. -/
abbrev Board := List (Coord × ℤ)

-- Board marks, exactly the module-level constants of `life.py`.
def DEAD : ℤ := 0
def ALIVE : ℤ := 1
def WILL_BORN : ℤ := 2
def WILL_DIE : ℤ := -1

/-- The eight Moore-neighborhood displacements, in source order. -/
def NEIGHBORS : List (ℤ × ℤ) :=
  [(0,1), (0,-1), (1,0), (-1,0), (1,1), (-1,1), (-1,-1), (1,-1)]

/-- The dict's key view (`board.keys()`). -/
def keys (b : Board) : List Coord := b.map Prod.fst

/-- Dict lookup `board[cell]`, `none` when the key is absent. -/
def lookup : Board → Coord → Option ℤ
  | [], _ => none
  | (k, v) :: rest, c => if k = c then some v else lookup rest c

/-- Value assignment `board[cell] = v` to an existing key: the key set and
the iteration order are unchanged; a missing key is left absent (the source
only ever assigns to keys present in the dict). -/
def setVal (b : Board) (c : Coord) (v : ℤ) : Board :=
  b.map (fun p => if p.1 = c then (c, v) else p)

/-- `count_neighbors(cell, board)` from `life.py`: a score accumulated over
the eight displacements; a displaced coordinate contributes 1 when it is a
key of the board and its mark is `ALIVE` or `WILL_DIE`. -/
def count_neighbors (cell : Coord) (b : Board) : ℕ :=
  NEIGHBORS.foldl
    (fun score n =>
      if (cell.1 + n.1, cell.2 + n.2) ∈ keys b then
        if lookup b (cell.1 + n.1, cell.2 + n.2) = some ALIVE ∨
            lookup b (cell.1 + n.1, cell.2 + n.2) = some WILL_DIE then
          score + 1
        else score
      else score)
    0

/-- One iteration of the mark loop of `update_board` at one cell. -/
def markStep (b : Board) (cell : Coord) : Board :=
  let neighbors := count_neighbors cell b
  if lookup b cell = some DEAD ∧ neighbors = 3 then
    setVal b cell WILL_BORN
  else if lookup b cell = some ALIVE ∧ neighbors ∉ ([2, 3] : List ℕ) then
    setVal b cell WILL_DIE
  else b

/-- The mark loop `for cell in board: ...` of `update_board`, iterating the
given key sequence over an evolving board. -/
def markGo : Board → List Coord → Board
  | b, [] => b
  | b, c :: cs => markGo (markStep b c) cs

/-- The per-cell effect of the commit loop: the two sequential `if`
statements `WILL_BORN ↦ ALIVE` then `WILL_DIE ↦ DEAD`. -/
def commitVal (v : ℤ) : ℤ :=
  let v1 := if v = WILL_BORN then ALIVE else v
  if v1 = WILL_DIE then DEAD else v1

/-- The commit loop of `update_board` (each cell's new mark depends only on
its own mark, so the loop is a map over the entries). -/
def commit_board (b : Board) : Board :=
  b.map (fun p => (p.1, commitVal p.2))

/-- `update_board(board)`: mark every cell over the board's key sequence,
then commit. Value assignment never changes the dict's key sequence, so the
loop iterates the entry key sequence. -/
def update_board (b : Board) : Board :=
  commit_board (markGo b (keys b))

/-- Python `range(n)` as a list of integers (empty for `n ≤ 0`). -/
def rangeList (n : ℤ) : List ℤ :=
  (List.range n.toNat).map Int.ofNat

/-- The coordinates of the `[0,dimx) × [0,dimy)` rectangle in the x-major
order in which `make_random_board` inserts them. -/
def rectKeys (dimx dimy : ℤ) : List Coord :=
  (rangeList dimx).flatMap (fun x => (rangeList dimy).map (fun y => (x, y)))

/-- `make_random_board(dimx, dimy)`: a cell is `ALIVE` exactly when its
random draw is strictly below the occupancy. The random source is a
collaborator, modeled as one draw per coordinate; the occupancy constant
`OCCUPANCY` is abstracted as a parameter. -/
def make_random_board (dimx dimy : ℤ) (occupancy : ℚ) (r : Coord → ℚ) : Board :=
  (rangeList dimx).flatMap (fun x =>
    (rangeList dimy).map (fun y =>
      ((x, y), if r (x, y) < occupancy then ALIVE else DEAD)))

/-- The error kinds named by the specification for board creation. -/
inductive LifeError
  | invalidDimension
  | invalidProbability
  deriving DecidableEq

/-- `make_random_board` viewed as a fallible call: the source contains no
validation and no raise path, so the result is always `Except.ok`. -/
def make_random_board_exc (dimx dimy : ℤ) (occupancy : ℚ) (r : Coord → ℚ) :
    Except LifeError Board :=
  Except.ok (make_random_board dimx dimy occupancy r)

/-- The loop of `life(dimx, dimy, iteration_limit)`. State: the fuel
`iteration_limit + 1 - counter` (the guard `counter <= iteration_limit`),
the counter, the accumulated timing, the quit flag, and the board. Each
pass calls `update_board`, adds the externally supplied duration `t i` of
iteration `i`, polls the quit signal for iteration `i`, and increments the
counter. -/
def lifeGo (signal : ℕ → Bool) (t : ℕ → ℚ) :
    ℕ → ℕ → ℚ → Bool → Board → ℕ × ℚ × Board
  | 0, counter, timing, _, b => (counter, timing, b)
  | fuel + 1, counter, timing, quit, b =>
    if quit then (counter, timing, b)
    else lifeGo signal t fuel (counter + 1) (timing + t counter)
      (signal counter) (update_board b)

/-- The game loop of `life` run to completion: counter and quit flag start
at `0` and `False`; the guard `counter <= iteration_limit` gives initial
fuel `limit + 1`. Returns the final counter, accumulated timing, and
board. -/
def life_run (signal : ℕ → Bool) (t : ℕ → ℚ) (limit : ℕ) (b : Board) :
    ℕ × ℚ × Board :=
  lifeGo signal t (limit + 1) 0 0 false b

/-- The value `timing/counter` returned by `life`. -/
def life_avg (signal : ℕ → Bool) (t : ℕ → ℚ) (limit : ℕ) (b : Board) : ℚ :=
  (life_run signal t limit b).2.1 / ((life_run signal t limit b).1 : ℚ)

/-- `count_neighbors` in state-passing form: the board is threaded through
every read exactly as the source performs them, and returned. -/
def count_neighbors_st (cell : Coord) (b : Board) : ℕ × Board :=
  NEIGHBORS.foldl
    (fun acc n =>
      (if (cell.1 + n.1, cell.2 + n.2) ∈ keys acc.2 then
        if lookup acc.2 (cell.1 + n.1, cell.2 + n.2) = some ALIVE ∨
            lookup acc.2 (cell.1 + n.1, cell.2 + n.2) = some WILL_DIE then
          acc.1 + 1
        else acc.1
      else acc.1, acc.2))
    (0, b)

/-- `count_neighbors` with every dict indexing operation made fallible
(`none` = a raised `KeyError`): each indexing is guarded by the membership
test, exactly as in the source. -/
def count_neighbors_opt (cell : Coord) (b : Board) : Option ℕ :=
  NEIGHBORS.foldlM
    (fun score n =>
      if (cell.1 + n.1, cell.2 + n.2) ∈ keys b then
        (lookup b (cell.1 + n.1, cell.2 + n.2)).bind (fun v =>
          some (if v = ALIVE ∨ v = WILL_DIE then score + 1 else score))
      else some score)
    0

/- Specification-side definitions, written from the claims' words. -/

/-- The number of live (`ALIVE`) Moore neighbors of a cell, read off the
board as it is: the classic rule's neighbor count on a clean board. -/
def live_neighbors (cell : Coord) (b : Board) : ℕ :=
  (NEIGHBORS.filter (fun n =>
    decide (lookup b (cell.1 + n.1, cell.2 + n.2) = some ALIVE))).length

/-- The classic B3/S23 next state: birth on exactly 3 live neighbors,
survival on 2 or 3, death otherwise. -/
def classicNextVal (v : ℤ) (n : ℕ) : ℤ :=
  if v = ALIVE then (if n = 2 ∨ n = 3 then ALIVE else DEAD)
  else (if n = 3 then ALIVE else DEAD)

/-- The neighbor count as the claims state it: the number of the eight
displacements whose displaced coordinate is a key of the board and whose
stored mark is `ALIVE` or `WILL_DIE`. -/
def count_spec (cell : Coord) (b : Board) : ℕ :=
  (NEIGHBORS.filter (fun n =>
    decide ((cell.1 + n.1, cell.2 + n.2) ∈ keys b ∧
      (lookup b (cell.1 + n.1, cell.2 + n.2) = some ALIVE ∨
        lookup b (cell.1 + n.1, cell.2 + n.2) = some WILL_DIE)))).length

/-- The mark the first loop of `update_board` assigns to a cell whose entry
mark is `v`, as decided against the board `b0`. -/
def markedVal (b0 : Board) (c : Coord) (v : ℤ) : ℤ :=
  if v = DEAD ∧ count_neighbors c b0 = 3 then WILL_BORN
  else if v = ALIVE ∧ count_neighbors c b0 ∉ ([2, 3] : List ℕ) then WILL_DIE
  else v

/-! ### Basic lemmas about lookup, keys and setVal -/

theorem lookup_cons (k : Coord) (w : ℤ) (rest : Board) (c : Coord) :
    lookup ((k, w) :: rest) c = if k = c then some w else lookup rest c :=
  rfl

theorem setVal_cons (k : Coord) (w : ℤ) (rest : Board) (c : Coord) (v : ℤ) :
    setVal ((k, w) :: rest) c v =
      (if k = c then (c, v) else (k, w)) :: setVal rest c v :=
  rfl

theorem lookup_eq_none_iff (b : Board) (c : Coord) :
    lookup b c = none ↔ c ∉ keys b := by
  induction b with
  | nil => simp [lookup, keys]
  | cons p rest ih =>
    obtain ⟨k, v⟩ := p
    rw [lookup_cons]
    by_cases hk : k = c
    · rw [if_pos hk]
      simp [keys, hk]
    · rw [if_neg hk, ih]
      simp only [keys, List.map_cons, List.mem_cons]
      constructor
      · intro hr hm
        rcases hm with hm | hm
        · exact hk hm.symm
        · exact hr hm
      · intro hcon hmem
        exact hcon (Or.inr hmem)

theorem lookup_some_mem_keys {b : Board} {c : Coord} {v : ℤ}
    (h : lookup b c = some v) : c ∈ keys b := by
  by_contra hc
  rw [← lookup_eq_none_iff] at hc
  rw [h] at hc
  exact Option.noConfusion hc

theorem lookup_some_mem {b : Board} {c : Coord} {v : ℤ}
    (h : lookup b c = some v) : (c, v) ∈ b := by
  induction b with
  | nil => exact absurd h (by simp [lookup])
  | cons p rest ih =>
    obtain ⟨k, w⟩ := p
    rw [lookup_cons] at h
    by_cases hk : k = c
    · rw [if_pos hk] at h
      have hv : w = v := Option.some.inj h
      subst hk
      subst hv
      exact List.mem_cons_self _ _
    · rw [if_neg hk] at h
      exact List.mem_cons_of_mem _ (ih h)

theorem mem_lookup_of_nodup {b : Board} {c : Coord} {v : ℤ}
    (hnd : (keys b).Nodup) (h : (c, v) ∈ b) : lookup b c = some v := by
  induction b with
  | nil => exact absurd h (List.not_mem_nil _)
  | cons p rest ih =>
    obtain ⟨k, w⟩ := p
    simp only [keys, List.map_cons, List.nodup_cons] at hnd
    rw [lookup_cons]
    rcases List.mem_cons.1 h with h1 | h1
    · have hk : k = c := (congrArg Prod.fst h1).symm
      have hv : w = v := (congrArg Prod.snd h1).symm
      rw [if_pos hk, hv]
    · have hkc : k ≠ c := fun he => hnd.1 (by
        rw [he]
        exact List.mem_map_of_mem Prod.fst h1)
      rw [if_neg hkc]
      exact ih hnd.2 h1

theorem keys_setVal (b : Board) (c : Coord) (v : ℤ) :
    keys (setVal b c v) = keys b := by
  induction b with
  | nil => rfl
  | cons p rest ih =>
    obtain ⟨k, w⟩ := p
    rw [setVal_cons]
    by_cases hk : k = c
    · rw [if_pos hk]
      simp only [keys, List.map_cons] at ih ⊢
      rw [hk]
      exact congrArg _ ih
    · rw [if_neg hk]
      simp only [keys, List.map_cons] at ih ⊢
      exact congrArg _ ih

theorem lookup_setVal_ne (b : Board) {c c' : Coord} (v : ℤ) (h : c' ≠ c) :
    lookup (setVal b c v) c' = lookup b c' := by
  induction b with
  | nil => rfl
  | cons p rest ih =>
    obtain ⟨k, w⟩ := p
    rw [setVal_cons, lookup_cons]
    by_cases hk : k = c
    · have hk' : ¬ k = c' := by
        rw [hk]
        exact fun he => h he.symm
      rw [if_pos hk, lookup_cons, if_neg (fun he => h he.symm),
        if_neg hk', ih]
    · rw [if_neg hk, lookup_cons]
      by_cases hkc : k = c'
      · rw [if_pos hkc, if_pos hkc]
      · rw [if_neg hkc, if_neg hkc, ih]

theorem lookup_setVal_self {b : Board} {c : Coord} (v : ℤ)
    (h : c ∈ keys b) : lookup (setVal b c v) c = some v := by
  induction b with
  | nil => exact absurd h (by simp [keys])
  | cons p rest ih =>
    obtain ⟨k, w⟩ := p
    rw [setVal_cons]
    by_cases hk : k = c
    · rw [if_pos hk, lookup_cons, if_pos rfl]
    · rw [if_neg hk, lookup_cons, if_neg hk]
      exact ih (by simpa [keys, Ne.symm hk] using h)

/-! ### The neighbor count as a countP, and its congruence properties -/

theorem foldl_guarded_count {α : Type} (p q : α → Prop)
    [DecidablePred p] [DecidablePred q] :
    ∀ (l : List α) (s : ℕ),
      l.foldl
        (fun score n => if p n then (if q n then score + 1 else score)
          else score) s
        = s + l.countP (fun n => decide (p n ∧ q n)) := by
  intro l
  induction l with
  | nil =>
    intro s
    rfl
  | cons a l ih =>
    intro s
    rw [List.foldl_cons, List.countP_cons]
    by_cases hp : p a
    · by_cases hq : q a
      · rw [if_pos hp, if_pos hq, ih]
        have : decide (p a ∧ q a) = true := by simp [hp, hq]
        rw [this, if_pos rfl]
        omega
      · rw [if_pos hp, if_neg hq, ih]
        have : ¬ decide (p a ∧ q a) = true := by simp [hq]
        rw [if_neg this]
        omega
    · rw [if_neg hp, ih]
      have : ¬ decide (p a ∧ q a) = true := by simp [hp]
      rw [if_neg this]
      omega

theorem count_neighbors_eq_countP (cell : Coord) (b : Board) :
    count_neighbors cell b
      = NEIGHBORS.countP (fun n =>
          decide ((cell.1 + n.1, cell.2 + n.2) ∈ keys b ∧
            (lookup b (cell.1 + n.1, cell.2 + n.2) = some ALIVE ∨
              lookup b (cell.1 + n.1, cell.2 + n.2) = some WILL_DIE))) := by
  have h := foldl_guarded_count
    (fun n : ℤ × ℤ => (cell.1 + n.1, cell.2 + n.2) ∈ keys b)
    (fun n : ℤ × ℤ => lookup b (cell.1 + n.1, cell.2 + n.2) = some ALIVE ∨
      lookup b (cell.1 + n.1, cell.2 + n.2) = some WILL_DIE)
    NEIGHBORS 0
  simpa [count_neighbors] using h

theorem count_neighbors_le_eight (cell : Coord) (b : Board) :
    count_neighbors cell b ≤ 8 := by
  rw [count_neighbors_eq_countP]
  have h8 : NEIGHBORS.length = 8 := rfl
  exact h8 ▸ List.countP_le_length _

theorem count_neighbors_eq_spec (cell : Coord) (b : Board) :
    count_neighbors cell b = count_spec cell b := by
  rw [count_neighbors_eq_countP, count_spec, ← List.countP_eq_length_filter]

theorem count_neighbors_congr {b bp : Board} (hk : keys bp = keys b)
    (hv : ∀ k : Coord,
      (lookup bp k = some ALIVE ∨ lookup bp k = some WILL_DIE) ↔
        (lookup b k = some ALIVE ∨ lookup b k = some WILL_DIE))
    (cell : Coord) :
    count_neighbors cell bp = count_neighbors cell b := by
  rw [count_neighbors_eq_countP, count_neighbors_eq_countP]
  apply List.countP_congr
  intro n _
  simp only [decide_eq_true_eq]
  rw [hk, hv]

theorem count_neighbors_eq_live {b : Board}
    (hclean : ∀ p ∈ b, p.2 = DEAD ∨ p.2 = ALIVE) (cell : Coord) :
    count_neighbors cell b = live_neighbors cell b := by
  rw [count_neighbors_eq_countP, live_neighbors,
    ← List.countP_eq_length_filter]
  apply List.countP_congr
  intro n _
  simp only [decide_eq_true_eq]
  constructor
  · rintro ⟨_, hA | hD⟩
    · exact hA
    · exfalso
      have hm := lookup_some_mem hD
      rcases hclean _ hm with h0 | h0 <;> simp [WILL_DIE, DEAD, ALIVE] at h0
  · intro hA
    exact ⟨lookup_some_mem_keys hA, Or.inl hA⟩

/-! ### Key-set preservation of the two phases -/

theorem markStep_def (b : Board) (c : Coord) :
    markStep b c =
      if lookup b c = some DEAD ∧ count_neighbors c b = 3 then
        setVal b c WILL_BORN
      else if lookup b c = some ALIVE ∧
          count_neighbors c b ∉ ([2, 3] : List ℕ) then
        setVal b c WILL_DIE
      else b :=
  rfl

theorem keys_markStep (b : Board) (c : Coord) :
    keys (markStep b c) = keys b := by
  rw [markStep_def]
  split
  · exact keys_setVal b c WILL_BORN
  · split
    · exact keys_setVal b c WILL_DIE
    · rfl

theorem keys_markGo : ∀ (cs : List Coord) (b : Board),
    keys (markGo b cs) = keys b := by
  intro cs
  induction cs with
  | nil => intro b; rfl
  | cons c cs ih =>
    intro b
    rw [markGo, ih, keys_markStep]

theorem keys_commit_board (b : Board) : keys (commit_board b) = keys b := by
  unfold commit_board keys
  rw [List.map_map]
  rfl

theorem keys_update_board (b : Board) : keys (update_board b) = keys b := by
  rw [update_board, keys_commit_board, keys_markGo]

theorem length_update_board (b : Board) :
    (update_board b).length = b.length := by
  have h1 := keys_update_board b
  have h2 : (keys (update_board b)).length = (keys b).length := by rw [h1]
  simpa [keys] using h2

theorem lookup_commit_board (b : Board) (c : Coord) :
    lookup (commit_board b) c = (lookup b c).map commitVal := by
  induction b with
  | nil => rfl
  | cons p rest ih =>
    obtain ⟨k, w⟩ := p
    show lookup ((k, commitVal w) :: commit_board rest) c = _
    rw [lookup_cons, lookup_cons]
    by_cases hk : k = c
    · rw [if_pos hk, if_pos hk, Option.map_some']
    · rw [if_neg hk, if_neg hk, ih]

/-! ### The mark loop computes `markedVal` against the entry board -/

theorem lookup_markStep (b : Board) (c k : Coord) :
    lookup (markStep b c) k =
      if k = c then
        (lookup b c).map (fun v =>
          if v = DEAD ∧ count_neighbors c b = 3 then WILL_BORN
          else if v = ALIVE ∧ count_neighbors c b ∉ ([2, 3] : List ℕ) then
            WILL_DIE
          else v)
      else lookup b k := by
  by_cases hkc : k = c
  · subst hkc
    rw [if_pos rfl, markStep_def]
    cases hv : lookup b k with
    | none =>
      simp only [Option.map_none']
      have h1 : ¬ ((none : Option ℤ) = some DEAD ∧
          count_neighbors k b = 3) := by simp
      have h2 : ¬ ((none : Option ℤ) = some ALIVE ∧
          count_neighbors k b ∉ ([2, 3] : List ℕ)) := by simp
      rw [if_neg h1, if_neg h2]
      exact hv
    | some v =>
      have hmk : k ∈ keys b := lookup_some_mem_keys hv
      simp only [Option.some.injEq, Option.map_some']
      by_cases h1 : v = DEAD ∧ count_neighbors k b = 3
      · rw [if_pos h1, if_pos h1]
        exact lookup_setVal_self _ hmk
      · rw [if_neg h1, if_neg h1]
        by_cases h2 : v = ALIVE ∧ count_neighbors k b ∉ ([2, 3] : List ℕ)
        · rw [if_pos h2, if_pos h2]
          exact lookup_setVal_self _ hmk
        · rw [if_neg h2, if_neg h2]
          exact hv
  · rw [if_neg hkc, markStep_def]
    split
    · exact lookup_setVal_ne b _ hkc
    · split
      · exact lookup_setVal_ne b _ hkc
      · rfl

theorem markedVal_liveish (b0 : Board) (k : Coord) {v : ℤ}
    (hv : v = DEAD ∨ v = ALIVE) :
    (markedVal b0 k v = ALIVE ∨ markedVal b0 k v = WILL_DIE) ↔
      (v = ALIVE ∨ v = WILL_DIE) := by
  unfold markedVal
  rcases hv with hv | hv <;> subst hv
  · split_ifs with h1 h2
    · decide
    · exact absurd h2.1 (by decide)
    · decide
  · split_ifs with h1 h2
    · exact absurd h1.1 (by decide)
    · decide
    · decide

/-- Liveness-for-counting is preserved throughout the mark loop: a cell
counts (`ALIVE` or `WILL_DIE`) in the partially marked board exactly when
it counts in the entry board. -/
theorem liveish_of_inv {b0 b : Board} (done : List Coord)
    (hclean : ∀ p ∈ b0, p.2 = DEAD ∨ p.2 = ALIVE)
    (hkeys : keys b = keys b0)
    (hinv : ∀ k v, lookup b0 k = some v →
      lookup b k = some (if k ∈ done then markedVal b0 k v else v)) :
    ∀ k, (lookup b k = some ALIVE ∨ lookup b k = some WILL_DIE) ↔
      (lookup b0 k = some ALIVE ∨ lookup b0 k = some WILL_DIE) := by
  intro k
  cases h0 : lookup b0 k with
  | none =>
    have hb : lookup b k = none := by
      rw [lookup_eq_none_iff, hkeys, ← lookup_eq_none_iff]
      exact h0
    rw [hb]
  | some v =>
    have hb := hinv k v h0
    have hcv : v = DEAD ∨ v = ALIVE := hclean _ (lookup_some_mem h0)
    rw [hb]
    simp only [Option.some.injEq]
    by_cases hd : k ∈ done
    · rw [if_pos hd]
      exact markedVal_liveish b0 k hcv
    · rw [if_neg hd]

/-- The central invariant of the mark loop: after processing any prefix of
the key sequence, every marked cell holds `markedVal` as decided against
the entry board, and running the loop to completion marks every cell that
way. All neighbor counts taken against partially marked boards agree with
the counts against the entry board. -/
theorem markGo_lookup (b0 : Board) (hnd : (keys b0).Nodup)
    (hclean : ∀ p ∈ b0, p.2 = DEAD ∨ p.2 = ALIVE) :
    ∀ (todo done : List Coord) (b : Board),
      keys b0 = done ++ todo →
      keys b = keys b0 →
      (∀ k v, lookup b0 k = some v →
        lookup b k = some (if k ∈ done then markedVal b0 k v else v)) →
      ∀ k v, lookup b0 k = some v →
        lookup (markGo b todo) k = some (markedVal b0 k v) := by
  intro todo
  induction todo with
  | nil =>
    intro done b hsplit hkeys hinv k v hv
    simp only [markGo]
    have hkmem : k ∈ keys b0 := lookup_some_mem_keys hv
    rw [hsplit, List.append_nil] at hkmem
    have hres := hinv k v hv
    rw [if_pos hkmem] at hres
    exact hres
  | cons c cs ih =>
    intro done b hsplit hkeys hinv k v hv
    simp only [markGo]
    have hcmem : c ∈ keys b0 := by
      rw [hsplit]
      exact List.mem_append.2 (Or.inr (List.mem_cons_self c cs))
    have hnd' : (done ++ c :: cs).Nodup := hsplit ▸ hnd
    have hcdone : c ∉ done := fun hcd =>
      (List.disjoint_of_nodup_append hnd') hcd (List.mem_cons_self c cs)
    have hlive := liveish_of_inv done hclean hkeys hinv
    have hcount : count_neighbors c b = count_neighbors c b0 :=
      count_neighbors_congr hkeys hlive c
    obtain ⟨v0, hv0⟩ : ∃ v0, lookup b0 c = some v0 := by
      cases hc : lookup b0 c with
      | none => exact absurd hcmem ((lookup_eq_none_iff b0 c).1 hc)
      | some w => exact ⟨w, rfl⟩
    have hbc : lookup b c = some v0 := by
      have hres := hinv c v0 hv0
      rw [if_neg hcdone] at hres
      exact hres
    apply ih (done ++ [c]) (markStep b c)
    · rw [hsplit, List.append_cons]
    · rw [keys_markStep, hkeys]
    · intro k' v' hv'
      rw [lookup_markStep]
      by_cases hkc : k' = c
      · subst hkc
        rw [if_pos rfl, hbc]
        simp only [Option.map_some']
        have hvv : v' = v0 := by
          rw [hv0] at hv'
          exact (Option.some.inj hv').symm
        rw [if_pos (List.mem_append.2 (Or.inr (List.mem_cons_self k' [])))]
        rw [hvv, hcount, markedVal]
      · rw [if_neg hkc]
        have hres := hinv k' v' hv'
        rw [hres]
        by_cases hkd : k' ∈ done
        · rw [if_pos hkd, if_pos (List.mem_append.2 (Or.inl hkd))]
        · rw [if_neg hkd, if_neg (by
            intro hmem
            rcases List.mem_append.1 hmem with hm | hm
            · exact hkd hm
            · exact hkc (List.mem_singleton.1 hm))]
    · exact hv

theorem update_board_lookup (b : Board) (hnd : (keys b).Nodup)
    (hclean : ∀ p ∈ b, p.2 = DEAD ∨ p.2 = ALIVE) :
    ∀ k v, lookup b k = some v →
      lookup (update_board b) k = some (commitVal (markedVal b k v)) := by
  intro k v hv
  have hm := markGo_lookup b hnd hclean (keys b) [] b
    (by rw [List.nil_append]) rfl
    (fun k' v' hv' => by rw [if_neg (List.not_mem_nil k')]; exact hv')
    k v hv
  rw [update_board, lookup_commit_board, hm, Option.map_some']

theorem commitVal_markedVal (b0 : Board) (c : Coord) {v : ℤ}
    (hv : v = DEAD ∨ v = ALIVE) :
    commitVal (markedVal b0 c v) = classicNextVal v (count_neighbors c b0) := by
  unfold markedVal classicNextVal
  rcases hv with hv | hv <;> subst hv
  · by_cases h3 : count_neighbors c b0 = 3
    · rw [if_pos ⟨rfl, h3⟩, if_neg (by decide : ¬ (DEAD = ALIVE)),
        if_pos h3]
      decide
    · rw [if_neg (fun hc => h3 hc.2),
        if_neg (fun hc => absurd hc.1 (by decide)),
        if_neg (by decide : ¬ (DEAD = ALIVE)), if_neg h3]
      decide
  · rw [if_neg (fun hc => absurd hc.1 (by decide))]
    by_cases h23 : count_neighbors c b0 ∈ ([2, 3] : List ℕ)
    · rw [if_neg (fun hc => hc.2 h23), if_pos rfl,
        if_pos (by simpa using h23)]
      decide
    · rw [if_pos ⟨rfl, h23⟩, if_pos rfl,
        if_neg (fun hc => h23 (by simpa using hc))]
      decide

/-- General form of the update guarantee: on any board with no duplicate
keys whose marks are all `DEAD` or `ALIVE`, `update_board` sends every
cell to the classic B3/S23 next state computed from the entry board. -/
theorem update_board_classic (b : Board) (hnd : (keys b).Nodup)
    (hclean : ∀ p ∈ b, p.2 = DEAD ∨ p.2 = ALIVE) :
    ∀ k v, lookup b k = some v →
      lookup (update_board b) k = some (classicNextVal v (live_neighbors k b)) := by
  intro k v hv
  rw [update_board_lookup b hnd hclean k v hv,
    commitVal_markedVal b k (hclean _ (lookup_some_mem hv)),
    count_neighbors_eq_live hclean]

/-! ### Randomized initialization -/

theorem rangeList_nodup (n : ℤ) : (rangeList n).Nodup :=
  (List.nodup_range _).map (fun _ _ h => Int.ofNat.inj h)

theorem rangeList_length (n : ℤ) : (rangeList n).length = n.toNat := by
  rw [rangeList, List.length_map, List.length_range]

theorem rectKeys_nodup (dimx dimy : ℤ) : (rectKeys dimx dimy).Nodup :=
  List.Nodup.product (rangeList_nodup dimx) (rangeList_nodup dimy)

theorem keys_make_random_board (dimx dimy : ℤ) (occ : ℚ) (r : Coord → ℚ) :
    keys (make_random_board dimx dimy occ r) = rectKeys dimx dimy := by
  unfold keys make_random_board rectKeys
  rw [List.map_flatMap]
  congr 1
  funext x
  rw [List.map_map]
  rfl

theorem length_flatMap_const {α β : Type} (f : α → List β) (m : ℕ) :
    ∀ l : List α, (∀ a ∈ l, (f a).length = m) →
      (l.flatMap f).length = l.length * m := by
  intro l
  induction l with
  | nil =>
    intro _
    simp
  | cons a l ih =>
    intro h
    rw [List.flatMap_cons, List.length_append, h a (List.mem_cons_self a l),
      ih (fun x hx => h x (List.mem_cons_of_mem a hx)), List.length_cons,
      Nat.succ_mul]
    omega

theorem length_make_random_board (dimx dimy : ℤ) (occ : ℚ) (r : Coord → ℚ) :
    (make_random_board dimx dimy occ r).length = dimx.toNat * dimy.toNat := by
  unfold make_random_board
  rw [length_flatMap_const _ dimy.toNat _
    (fun x _ => by rw [List.length_map, rangeList_length]), rangeList_length]

theorem mem_make_random_board {dimx dimy : ℤ} {occ : ℚ} {r : Coord → ℚ}
    {p : Coord × ℤ} (h : p ∈ make_random_board dimx dimy occ r) :
    ∃ x y, p = ((x, y), if r (x, y) < occ then ALIVE else DEAD) := by
  unfold make_random_board at h
  rw [List.mem_flatMap] at h
  obtain ⟨x, _, hx⟩ := h
  rw [List.mem_map] at hx
  obtain ⟨y, _, hy⟩ := hx
  exact ⟨x, y, hy.symm⟩

theorem make_random_board_clean (dimx dimy : ℤ) (occ : ℚ) (r : Coord → ℚ) :
    ∀ p ∈ make_random_board dimx dimy occ r, p.2 = DEAD ∨ p.2 = ALIVE := by
  intro p hp
  obtain ⟨x, y, hxy⟩ := mem_make_random_board hp
  rw [hxy]
  by_cases hr : r (x, y) < occ
  · rw [if_pos hr]
    exact Or.inr rfl
  · rw [if_neg hr]
    exact Or.inl rfl

/-! ### The driving loop of `life` -/

theorem lifeGo_quit (signal : ℕ → Bool) (t : ℕ → ℚ) :
    ∀ (fuel counter : ℕ) (timing : ℚ) (b : Board),
      lifeGo signal t fuel counter timing true b = (counter, timing, b) := by
  intro fuel
  cases fuel <;> intro counter timing b <;> simp [lifeGo]

theorem lifeGo_counter_le (signal : ℕ → Bool) (t : ℕ → ℚ) :
    ∀ (fuel counter : ℕ) (timing : ℚ) (quit : Bool) (b : Board),
      counter ≤ (lifeGo signal t fuel counter timing quit b).1 := by
  intro fuel
  induction fuel with
  | zero =>
    intro counter timing quit b
    exact le_refl _
  | succ n ih =>
    intro counter timing quit b
    cases quit with
    | true =>
      rw [lifeGo_quit]
    | false =>
      simp only [lifeGo, Bool.false_eq_true, if_false]
      exact le_trans (Nat.le_succ counter) (ih _ _ _ _)

theorem lifeGo_no_signal (signal : ℕ → Bool) (t : ℕ → ℚ)
    (hs : ∀ i, signal i = false) :
    ∀ (fuel counter : ℕ) (timing : ℚ) (b : Board),
      (lifeGo signal t fuel counter timing false b).1 = counter + fuel ∧
        (lifeGo signal t fuel counter timing false b).2.2 =
          update_board^[fuel] b := by
  intro fuel
  induction fuel with
  | zero =>
    intro counter timing b
    exact ⟨rfl, rfl⟩
  | succ n ih =>
    intro counter timing b
    simp only [lifeGo, Bool.false_eq_true, if_false, hs counter]
    obtain ⟨h1, h2⟩ := ih (counter + 1) (timing + t counter) (update_board b)
    refine ⟨by rw [h1]; omega, ?_⟩
    rw [h2, ← Function.iterate_succ_apply]

theorem lifeGo_signal_le (signal : ℕ → Bool) (t : ℕ → ℚ) (k : ℕ)
    (hk : signal k = true) :
    ∀ (fuel counter : ℕ) (timing : ℚ) (b : Board), counter ≤ k →
      (lifeGo signal t fuel counter timing false b).1 ≤ k + 1 := by
  intro fuel
  induction fuel with
  | zero =>
    intro counter timing b hck
    exact le_trans hck (Nat.le_succ k)
  | succ n ih =>
    intro counter timing b hck
    simp only [lifeGo, Bool.false_eq_true, if_false]
    by_cases hek : counter = k
    · rw [hek, hk, lifeGo_quit]
    · cases hs : signal counter with
      | true =>
        rw [lifeGo_quit]
        omega
      | false =>
        exact ih (counter + 1) _ _ (by omega)

/-! ### Counting is read-only and never raises -/

theorem foldl_pair_state {α : Type} (g : Board → α → ℕ → ℕ) :
    ∀ (l : List α) (x : Board) (s : ℕ),
      l.foldl (fun acc n => (g acc.2 n acc.1, acc.2)) (s, x)
        = (l.foldl (fun sc n => g x n sc) s, x) := by
  intro l
  induction l with
  | nil =>
    intro x s
    rfl
  | cons a l ih =>
    intro x s
    rw [List.foldl_cons, List.foldl_cons]
    exact ih x (g x a s)

theorem count_neighbors_st_spec (cell : Coord) (b : Board) :
    count_neighbors_st cell b = (count_neighbors cell b, b) := by
  unfold count_neighbors_st count_neighbors
  exact foldl_pair_state
    (fun bd n sc =>
      if (cell.1 + n.1, cell.2 + n.2) ∈ keys bd then
        if lookup bd (cell.1 + n.1, cell.2 + n.2) = some ALIVE ∨
            lookup bd (cell.1 + n.1, cell.2 + n.2) = some WILL_DIE then
          sc + 1
        else sc
      else sc)
    NEIGHBORS b 0

theorem count_neighbors_opt_spec (cell : Coord) (b : Board) :
    count_neighbors_opt cell b = some (count_neighbors cell b) := by
  have main : ∀ (l : List (ℤ × ℤ)) (s : ℕ),
      l.foldlM
        (fun score n =>
          if (cell.1 + n.1, cell.2 + n.2) ∈ keys b then
            (lookup b (cell.1 + n.1, cell.2 + n.2)).bind (fun v =>
              some (if v = ALIVE ∨ v = WILL_DIE then score + 1 else score))
          else some score)
        s
      = some (l.foldl
          (fun score n =>
            if (cell.1 + n.1, cell.2 + n.2) ∈ keys b then
              if lookup b (cell.1 + n.1, cell.2 + n.2) = some ALIVE ∨
                  lookup b (cell.1 + n.1, cell.2 + n.2) = some WILL_DIE then
                score + 1
              else score
            else score)
          s) := by
    intro l
    induction l with
    | nil =>
      intro s
      rfl
    | cons a l ih =>
      intro s
      rw [List.foldlM_cons, List.foldl_cons]
      by_cases hm : (cell.1 + a.1, cell.2 + a.2) ∈ keys b
      · rw [if_pos hm, if_pos hm]
        obtain ⟨v, hv⟩ :
            ∃ v, lookup b (cell.1 + a.1, cell.2 + a.2) = some v := by
          cases hl : lookup b (cell.1 + a.1, cell.2 + a.2) with
          | none => exact absurd hm ((lookup_eq_none_iff b _).1 hl)
          | some w => exact ⟨w, rfl⟩
        rw [hv]
        simp only [Option.some_bind, Option.some.injEq, bind_pure_comp,
          Option.bind_eq_bind]
        exact ih _
      · rw [if_neg hm, if_neg hm]
        simp only [Option.bind_eq_bind, Option.some_bind]
        exact ih s
  unfold count_neighbors_opt count_neighbors
  exact main NEIGHBORS 0

/-! ### Entry marks of the updated board -/

theorem setVal_values {b : Board} {c : Coord} {v : ℤ} {q : Coord × ℤ}
    (h : q ∈ setVal b c v) : q.2 = v ∨ q ∈ b := by
  unfold setVal at h
  rw [List.mem_map] at h
  obtain ⟨p, hp, hq⟩ := h
  by_cases hc : p.1 = c
  · rw [if_pos hc] at hq
    exact Or.inl (by rw [← hq])
  · rw [if_neg hc] at hq
    exact Or.inr (hq ▸ hp)

theorem markStep_values {b : Board} {c : Coord} {q : Coord × ℤ}
    (h : q ∈ markStep b c) : q ∈ b ∨ q.2 = WILL_BORN ∨ q.2 = WILL_DIE := by
  rw [markStep_def] at h
  split at h
  · rcases setVal_values h with h1 | h1
    · exact Or.inr (Or.inl h1)
    · exact Or.inl h1
  · split at h
    · rcases setVal_values h with h1 | h1
      · exact Or.inr (Or.inr h1)
      · exact Or.inl h1
    · exact Or.inl h

theorem markGo_values : ∀ (cs : List Coord) (b : Board) (q : Coord × ℤ),
    q ∈ markGo b cs → q ∈ b ∨ q.2 = WILL_BORN ∨ q.2 = WILL_DIE := by
  intro cs
  induction cs with
  | nil =>
    intro b q h
    exact Or.inl h
  | cons c cs ih =>
    intro b q h
    simp only [markGo] at h
    rcases ih (markStep b c) q h with h1 | h1
    · exact markStep_values h1
    · exact Or.inr h1

theorem commitVal_clean {v : ℤ}
    (h : v = DEAD ∨ v = ALIVE ∨ v = WILL_BORN ∨ v = WILL_DIE) :
    commitVal v = DEAD ∨ commitVal v = ALIVE := by
  rcases h with h | h | h | h <;> subst h <;> decide

theorem update_board_values {b : Board}
    (hclean : ∀ p ∈ b, p.2 = DEAD ∨ p.2 = ALIVE) :
    ∀ q ∈ update_board b, q.2 = DEAD ∨ q.2 = ALIVE := by
  intro q hq
  rw [update_board] at hq
  unfold commit_board at hq
  rw [List.mem_map] at hq
  obtain ⟨p, hp, hpq⟩ := hq
  have hval : p.2 = DEAD ∨ p.2 = ALIVE ∨ p.2 = WILL_BORN ∨ p.2 = WILL_DIE := by
    rcases markGo_values (keys b) b p hp with h1 | h1
    · rcases hclean p h1 with h2 | h2
      · exact Or.inl h2
      · exact Or.inr (Or.inl h2)
    · rcases h1 with h2 | h2
      · exact Or.inr (Or.inr (Or.inl h2))
      · exact Or.inr (Or.inr (Or.inr h2))
  have hq2 : q.2 = commitVal p.2 := by rw [← hpq]
  rw [hq2]
  exact commitVal_clean hval

theorem count_setVal_self (cell : Coord) (b : Board) (v : ℤ) :
    count_neighbors cell (setVal b cell v) = count_neighbors cell b := by
  have hne : ∀ n ∈ NEIGHBORS, (cell.1 + n.1, cell.2 + n.2) ≠ cell := by
    intro n hn he
    have h1 : cell.1 + n.1 = cell.1 := congrArg Prod.fst he
    have h2 : cell.2 + n.2 = cell.2 := congrArg Prod.snd he
    have hn1 : n.1 = 0 := by omega
    have hn2 : n.2 = 0 := by omega
    have hz : n = ((0 : ℤ), (0 : ℤ)) := by
      rw [Prod.ext_iff]
      exact ⟨hn1, hn2⟩
    rw [hz] at hn
    exact absurd hn (by decide)
  rw [count_neighbors_eq_countP, count_neighbors_eq_countP]
  apply List.countP_congr
  intro n hn
  simp only [decide_eq_true_eq]
  rw [keys_setVal, lookup_setVal_ne b v (hne n hn)]

theorem rangeList_nonpos {n : ℤ} (h : n ≤ 0) : rangeList n = [] := by
  rw [rangeList, Int.toNat_of_nonpos h, List.range_zero, List.map_nil]

/-! ### The claims -/

/-- A 3×3 board holding a horizontal blinker, with the key sequence in the
insertion order of `make_random_board`. -/
def blinker : Board :=
  [((0, 0), DEAD), ((0, 1), ALIVE), ((0, 2), DEAD),
   ((1, 0), DEAD), ((1, 1), ALIVE), ((1, 2), DEAD),
   ((2, 0), DEAD), ((2, 1), ALIVE), ((2, 2), DEAD)]

/-- C1: for every board whose stored states are all `DEAD` or `ALIVE` on a
`[0,dimx) × [0,dimy)` rectangle, after `update_board` returns, every
cell's state is exactly what the classic B3/S23 rule (birth on exactly 3
live neighbors; survival on 2 or 3; death otherwise) produces from the
board's state on entry: the in-place two-phase mark/commit pass computes
the simultaneous next generation. -/
theorem claim_C1_update_is_classic_life (b : Board) (dimx dimy : ℤ)
    (hk : keys b = rectKeys dimx dimy)
    (hclean : ∀ p ∈ b, p.2 = DEAD ∨ p.2 = ALIVE) :
    ∀ k v, lookup b k = some v →
      lookup (update_board b) k =
        some (classicNextVal v (live_neighbors k b)) :=
  update_board_classic b (hk ▸ rectKeys_nodup dimx dimy) hclean

theorem claim_C1_witness :
    lookup (update_board blinker) (1, 0) =
      some (classicNextVal DEAD (live_neighbors (1, 0) blinker)) :=
  claim_C1_update_is_classic_life blinker 3 3 (by decide) (by decide)
    (1, 0) DEAD (by decide)

/-- C2: `count_neighbors` returns a value in `[0, 8]` that equals exactly
the number of the eight Moore displacements whose displaced coordinate is
a key of the board and whose stored state is `ALIVE` or `WILL_DIE`; absent
coordinates and `WILL_BORN` neighbors contribute nothing. -/
theorem claim_C2_count_neighbors_exact (cell : Coord) (b : Board) :
    count_neighbors cell b ≤ 8 ∧
      count_neighbors cell b = count_spec cell b :=
  ⟨count_neighbors_le_eight cell b, count_neighbors_eq_spec cell b⟩

/-- C3: for every board whose stored states are all `DEAD` or `ALIVE`,
after `update_board` completes every stored state is again `DEAD` or
`ALIVE`: the transient `WILL_BORN`/`WILL_DIE` marks are all eliminated by
the commit phase. -/
theorem claim_C3_no_transient_marks_after_update (b : Board)
    (hclean : ∀ p ∈ b, p.2 = DEAD ∨ p.2 = ALIVE) :
    ∀ q ∈ update_board b, q.2 = DEAD ∨ q.2 = ALIVE :=
  update_board_values hclean

theorem claim_C3_witness :
    (((0, 0) : Coord), DEAD).2 = DEAD ∨ (((0, 0) : Coord), DEAD).2 = ALIVE :=
  claim_C3_no_transient_marks_after_update [((0, 0), ALIVE)] (by decide)
    ((0, 0), DEAD) (by decide)

/-- C4: for positive dimensions, the initial board has exactly
`dimx * dimy` entries, one per rectangle coordinate, and `update_board`
preserves the key sequence (hence the entry count) of every board. -/
theorem claim_C4_dimension_invariant (dimx dimy : ℤ) (hx : 0 < dimx)
    (hy : 0 < dimy) (occ : ℚ) (r : Coord → ℚ) :
    ((make_random_board dimx dimy occ r).length : ℤ) = dimx * dimy ∧
    keys (make_random_board dimx dimy occ r) = rectKeys dimx dimy ∧
    ∀ b : Board, keys (update_board b) = keys b ∧
      (update_board b).length = b.length := by
  refine ⟨?_, keys_make_random_board dimx dimy occ r,
    fun b => ⟨keys_update_board b, length_update_board b⟩⟩
  rw [length_make_random_board, Nat.cast_mul,
    Int.toNat_of_nonneg hx.le, Int.toNat_of_nonneg hy.le]

theorem claim_C4_witness :
    ((make_random_board 2 2 (1/4) (fun _ => 0)).length : ℤ) = 2 * 2 :=
  (claim_C4_dimension_invariant 2 2 (by decide) (by decide) (1/4)
    (fun _ => 0)).1

/-- C5: with no cancellation signal the loop of `life` calls
`update_board` exactly `limit + 1` times (the counter starts at 0 and the
guard is `counter <= iteration_limit`); a signal observed at iteration `k`
stops the loop by iteration `k + 1`. -/
theorem claim_C5_iteration_count (signal : ℕ → Bool) (t : ℕ → ℚ)
    (limit : ℕ) (b : Board) (k : ℕ) :
    ((∀ i, signal i = false) →
      (life_run signal t limit b).1 = limit + 1 ∧
      (life_run signal t limit b).2.2 = update_board^[limit + 1] b) ∧
    (signal k = true → (life_run signal t limit b).1 ≤ k + 1) := by
  constructor
  · intro hs
    obtain ⟨h1, h2⟩ := lifeGo_no_signal signal t hs (limit + 1) 0 0 b
    exact ⟨by rw [life_run, h1, Nat.zero_add], by rw [life_run, h2]⟩
  · intro hk
    exact lifeGo_signal_le signal t k hk (limit + 1) 0 0 b (Nat.zero_le k)

theorem claim_C5_witness :
    (life_run (fun _ => false) (fun _ => 0) 2 []).1 = 2 + 1 ∧
    (life_run (fun i => i == 1) (fun _ => 0) 5 []).1 ≤ 1 + 1 :=
  ⟨((claim_C5_iteration_count (fun _ => false) (fun _ => 0) 2 [] 0).1
      (fun _ => rfl)).1,
   (claim_C5_iteration_count (fun i => i == 1) (fun _ => 0) 5 [] 1).2
      (by decide)⟩

/-- C6: the divisor of the average-time division of `life` is the final
loop counter, and it is at least 1 for every signal, timing source,
iteration limit and board — the first loop pass always runs because the
quit flag starts false and the counter check `0 <= iteration_limit` holds. -/
theorem claim_C6_divisor_at_least_one (signal : ℕ → Bool) (t : ℕ → ℚ)
    (limit : ℕ) (b : Board) :
    1 ≤ (life_run signal t limit b).1 := by
  rw [life_run]
  simp only [lifeGo, Bool.false_eq_true, if_false]
  exact lifeGo_counter_le signal t limit 1 (0 + t 0) (signal 0)
    (update_board b)

/-- C7 counterexample: on `dimx = 0` the creation call does not fail with
`InvalidDimension`; it silently returns the empty board. -/
theorem claim_C7_counterexample :
    make_random_board_exc 0 5 (1/4) (fun _ => 0) = Except.ok [] ∧
    make_random_board_exc 0 5 (1/4) (fun _ => 0) ≠
      Except.error LifeError.invalidDimension := by
  constructor
  · rfl
  · intro h
    rw [make_random_board_exc] at h
    exact Except.noConfusion h

/-- C7 (amended): board creation performs no input validation at all — it
never fails for any `dimx`, `dimy`, occupancy or random source, and for
`dimx ≤ 0` or `dimy ≤ 0` it silently produces the empty board instead of
failing with `InvalidDimension`; occupancy is never range-checked. -/
theorem claim_C7_no_validation (dimx dimy : ℤ) (occ : ℚ) (r : Coord → ℚ) :
    (∃ bd, make_random_board_exc dimx dimy occ r = Except.ok bd) ∧
    (dimx ≤ 0 ∨ dimy ≤ 0 → make_random_board dimx dimy occ r = []) := by
  refine ⟨⟨make_random_board dimx dimy occ r, rfl⟩, fun h => ?_⟩
  apply List.length_eq_zero.1
  rw [length_make_random_board]
  rcases h with h | h
  · rw [Int.toNat_of_nonpos h, Nat.zero_mul]
  · rw [Int.toNat_of_nonpos h, Nat.mul_zero]

theorem claim_C7_witness :
    (∃ bd, make_random_board_exc 0 5 (1/4) (fun _ => 1/2) = Except.ok bd) ∧
    make_random_board 0 5 (1/4) (fun _ => 1/2) = [] :=
  ⟨(claim_C7_no_validation 0 5 (1/4) (fun _ => 1/2)).1,
   (claim_C7_no_validation 0 5 (1/4) (fun _ => 1/2)).2 (Or.inl le_rfl)⟩

/-- C8: for positive dimensions and a random source drawing in `[0, 1)`,
occupancy 0 yields an all-dead board and occupancy 1 an all-alive board,
since a cell is set alive exactly when its draw is strictly below the
occupancy. -/
theorem claim_C8_extreme_occupancy (dimx dimy : ℤ) (hx : 0 < dimx)
    (hy : 0 < dimy) (r : Coord → ℚ) (hr : ∀ c, 0 ≤ r c ∧ r c < 1) :
    (∀ q ∈ make_random_board dimx dimy 0 r, q.2 = DEAD) ∧
    (∀ q ∈ make_random_board dimx dimy 1 r, q.2 = ALIVE) := by
  constructor
  · intro q hq
    obtain ⟨x, y, hxy⟩ := mem_make_random_board hq
    rw [hxy, if_neg (not_lt.2 (hr (x, y)).1)]
  · intro q hq
    obtain ⟨x, y, hxy⟩ := mem_make_random_board hq
    rw [hxy, if_pos (hr (x, y)).2]

theorem claim_C8_witness :
    (((0, 0) : Coord), DEAD).2 = DEAD ∧
      (((0, 0) : Coord), ALIVE).2 = ALIVE :=
  ⟨(claim_C8_extreme_occupancy 1 1 (by decide) (by decide) (fun _ => 0)
      (fun _ => ⟨le_refl 0, by norm_num⟩)).1 ((0, 0), DEAD) (by decide),
   (claim_C8_extreme_occupancy 1 1 (by decide) (by decide) (fun _ => 0)
      (fun _ => ⟨le_refl 0, by norm_num⟩)).2 ((0, 0), ALIVE) (by decide)⟩

/-- C9: neighbor counting never modifies the board — in state-passing form
the board coming out of `count_neighbors_st` is exactly the board that
went in (same key sequence, same stored states), and the score agrees with
the pure count. -/
theorem claim_C9_count_is_read_only (cell : Coord) (b : Board) :
    (count_neighbors_st cell b).2 = b ∧
      (count_neighbors_st cell b).1 = count_neighbors cell b := by
  rw [count_neighbors_st_spec]
  exact ⟨rfl, rfl⟩

/-- C10: neighbor counting is total and never raises a lookup error, for
any cell including coordinates absent from the board: with every dict
indexing made fallible, the guarded lookups always succeed; and the cell's
own entry is never read — overwriting it does not change the count. -/
theorem claim_C10_count_total_no_keyerror (cell : Coord) (b : Board)
    (v : ℤ) :
    count_neighbors_opt cell b = some (count_neighbors cell b) ∧
    count_neighbors cell (setVal b cell v) = count_neighbors cell b :=
  ⟨count_neighbors_opt_spec cell b, count_setVal_self cell b v⟩

end Life
